import Mathlib

/-!
Verification development for the indexed d-ary min-heap
(`MinIndexedDHeap` in the TypeScript source).  The TypeScript class is
shallowly embedded: the three backing JavaScript arrays become Lean lists
with explicit JavaScript array semantics (reads out of range or from holes
yield `undefined`, writes past the end pad with holes), machine numbers
become `Int`, and the `throw new Error` paths become an explicit error
result.  The while loops of `sink` and `swim` are modelled with an explicit
fuel argument; running out of fuel is reported as a distinguished
`diverge` result, and the fuel supplied at the call sites provably covers
every terminating execution of the JavaScript loops.
-/

namespace TSHeap

/-- A JavaScript value slot of payload type `T`: a real payload, the
JavaScript `null`, or the JavaScript `undefined` (never-written slot,
array hole, or out-of-range read). -/
inductive JSVal (T : Type) where
  | undefined
  | null
  | val (t : T)
deriving DecidableEq, Repr

/-- Result of running a piece of the embedded JavaScript code: a normal
value, a thrown error (`throw new Error(...)` in the source), or
divergence (the model ran out of fuel for a while loop). -/
inductive JSRes (α : Type) where
  | ok (a : α)
  | thrown
  | diverge
deriving DecidableEq, Repr

def JSRes.bind {α β : Type} : JSRes α → (α → JSRes β) → JSRes β
  | .ok a, f => f a
  | .thrown, _ => .thrown
  | .diverge, _ => .diverge

instance : Monad JSRes where
  pure := JSRes.ok
  bind := JSRes.bind

/-- Read of a JavaScript array element `l[i]` with `Int` index: out of
range (including negative indices) yields the default `dfl`. -/
def arrRead {α : Type} (l : List α) (dfl : α) (i : Int) : α :=
  if h : 0 ≤ i ∧ i.toNat < l.length then l.get ⟨i.toNat, h.2⟩ else dfl

/-- Write of a JavaScript array element `l[i] = v` with `Nat` index:
writing past the end pads the intermediate slots with the hole value
`dfl` (JavaScript holes read back as `undefined`). -/
def arrWrite {α : Type} (l : List α) (dfl : α) (i : Nat) (v : α) : List α :=
  if i < l.length then l.set i v
  else l ++ List.replicate (i - l.length) dfl ++ [v]

/-- The state of a `MinIndexedDHeap<T>`: degree `d`, size `sz`, the three
backing arrays.  `values` maps keys to value slots (`null` marks a deleted
key, `undefined` a hole), `heap` maps positions to keys (`none` is a hole,
which never occurs in reachable states), and `pm` maps keys to positions
(`-1` after deletion, `none` is a hole / never-inserted key). -/
structure MinIndexedDHeap (T : Type) where
  d : Int
  sz : Int
  values : List (JSVal T)
  heap : List (Option Nat)
  pm : List (Option Int)
deriving DecidableEq, Repr

/-- The constructor: `d` is clamped to at least 2, everything starts
empty.  The comparator is passed to each operation explicitly instead of
being stored in the instance. -/
def mkHeap (T : Type) (degree : Int) : MinIndexedDHeap T :=
  { d := max 2 degree, sz := 0, values := [], heap := [], pm := [] }

/-- Read `values[key]` (JavaScript array read, holes give `undefined`). -/
def valuesRead {T : Type} (values : List (JSVal T)) (key : Nat) : JSVal T :=
  values.getD key .undefined

/-- Write `values[key] = v`. -/
def valuesWrite {T : Type} (values : List (JSVal T)) (key : Nat) (v : JSVal T) :
    List (JSVal T) :=
  arrWrite values .undefined key v

/-- Read `pm[key]`: `none` models the JavaScript `undefined`. -/
def pmRead (pm : List (Option Int)) (key : Nat) : Option Int :=
  pm.getD key none

/-- Write `pm[key] = v`. -/
def pmWrite (pm : List (Option Int)) (key : Nat) (v : Option Int) :
    List (Option Int) :=
  arrWrite pm none key v

/-- Read `heap[position]` with an `Int` position: out of range or a hole
gives `none` (JavaScript `undefined`). -/
def heapRead (heap : List (Option Nat)) (i : Int) : Option Nat :=
  arrRead heap none i

/-- Write `heap[position] = v`.  A write at a negative index is a plain
property assignment in JavaScript, invisible to every element read the
class performs, so it is modelled as a no-op. -/
def heapWrite (heap : List (Option Nat)) (i : Int) (v : Option Nat) :
    List (Option Nat) :=
  if i < 0 then heap else arrWrite heap none i.toNat v

namespace MinIndexedDHeap

variable {T : Type}

/-- `size()`. -/
def size (s : MinIndexedDHeap T) : Int := s.sz

/-- `isEmpty()`. -/
def isEmpty (s : MinIndexedDHeap T) : Bool := s.size == 0

/-- `contains(key)`: `pm[key] !== undefined && pm[key] !== -1`. -/
def contains (s : MinIndexedDHeap T) (key : Nat) : Bool :=
  match pmRead s.pm key with
  | none => false
  | some p => if p = -1 then false else true

/-- `getChildrenPositions(parentIndex)`.  The source pushes
`parentIndex * this.d + 1` on every iteration of its `for` loop (the loop
variable `i` is never used), so the list holds `d` copies of the first
child position. -/
def getChildrenPositions (d : Int) (parentIndex : Int) : List Int :=
  List.replicate d.toNat (parentIndex * d + 1)

/-- `getParentPosition(childIndex)`: `Math.floor((childIndex - 1) / d)`,
which for the positive degrees produced by the constructor is floor
division. -/
def getParentPosition (d : Int) (childIndex : Int) : Int :=
  Int.fdiv (childIndex - 1) d

/-- The value a heap position resolves to:
`this.values[this.heap[position]]`.  An out-of-range position resolves to
`undefined` (reading `values[undefined]` in JavaScript). -/
def resolvePos (s : MinIndexedDHeap T) (p : Int) : JSVal T :=
  match heapRead s.heap p with
  | none => .undefined
  | some key => valuesRead s.values key

/-- `lessForPositions(positionA, positionB)`: throws when either resolved
value is `null` (and only then), otherwise compares. -/
def lessForPositions (cmp : JSVal T → JSVal T → Int) (s : MinIndexedDHeap T)
    (pA pB : Int) : JSRes Bool :=
  match resolvePos s pA, resolvePos s pB with
  | .null, _ => .thrown
  | _, .null => .thrown
  | a, b => .ok (cmp a b < 0)

/-- `lessForValues(a, b)`: comparator applied to two proper payloads. -/
def lessForValues (cmp : JSVal T → JSVal T → Int) (a b : T) : Bool :=
  cmp (.val a) (.val b) < 0

/-- `swap(positionI, positionJ)`.  When a swapped slot reads as
`undefined`, the JavaScript `pm[undefined] = ...` assignment creates a
string-keyed property that no later read of the class can observe, so it
is modelled as a no-op on `pm`. -/
def swap (s : MinIndexedDHeap T) (pI pJ : Int) : MinIndexedDHeap T :=
  let keyI := heapRead s.heap pI
  let keyJ := heapRead s.heap pJ
  let pm1 := match keyI with
    | some k => pmWrite s.pm k (some pJ)
    | none => s.pm
  let pm2 := match keyJ with
    | some k => pmWrite pm1 k (some pI)
    | none => pm1
  let heap1 := heapWrite s.heap pI keyJ
  let heap2 := heapWrite heap1 pJ keyI
  { s with pm := pm2, heap := heap2 }

/-- The `for (const childPosition of childrenPositions)` scan inside
`sink`: the in-bounds test reads the accumulator (the source checks
`smallestChildPosition < this.size()`, not the visited child), and the
comparison is evaluated before the test, so it can throw even for an
out-of-bounds accumulator. -/
def sinkScan (cmp : JSVal T → JSVal T → Int) (s : MinIndexedDHeap T) :
    List Int → Int → JSRes Int
  | [], acc => .ok acc
  | c :: rest, acc =>
    match lessForPositions cmp s c acc with
    | .thrown => .thrown
    | .diverge => .diverge
    | .ok less =>
      sinkScan cmp s rest (if acc < s.sz ∧ less = true then c else acc)

/-- One fuel-indexed unfolding of the `while (true)` loop of `sink`.
`childrenPositions[0]` is taken with default 0; the constructor clamps
the degree to at least 2, so the children list is never empty in any
state the class builds. -/
def sinkLoop (cmp : JSVal T → JSVal T → Int) :
    Nat → MinIndexedDHeap T → Int → JSRes (MinIndexedDHeap T)
  | 0, _, _ => .diverge
  | fuel + 1, s, k =>
    let childrenPositions := getChildrenPositions s.d k
    match sinkScan cmp s childrenPositions (childrenPositions.headD 0) with
    | .thrown => .thrown
    | .diverge => .diverge
    | .ok smallest =>
      match lessForPositions cmp s k smallest with
      | .thrown => .thrown
      | .diverge => .diverge
      | .ok elemLess =>
        if s.sz ≤ smallest ∨ elemLess = true then .ok s
        else sinkLoop cmp fuel (s.swap k smallest) smallest

/-- `sink(k)`.  Fuel `sz.toNat + 1` covers every terminating run: the
position strictly increases (`k` becomes `k*d + 1` with `d ≥ 2`) and the
loop goes on only while the next position is below `sz`. -/
def sink (cmp : JSVal T → JSVal T → Int) (s : MinIndexedDHeap T) (k : Int) :
    JSRes (MinIndexedDHeap T) :=
  sinkLoop cmp (s.sz.toNat + 1) s k

/-- One fuel-indexed unfolding of the `while` loop of `swim`. -/
def swimLoop (cmp : JSVal T → JSVal T → Int) :
    Nat → MinIndexedDHeap T → Int → JSRes (MinIndexedDHeap T)
  | 0, _, _ => .diverge
  | fuel + 1, s, k =>
    let parentPostion := getParentPosition s.d k
    if k > 0 then
      match lessForPositions cmp s k parentPostion with
      | .thrown => .thrown
      | .diverge => .diverge
      | .ok less =>
        if less then swimLoop cmp fuel (s.swap k parentPostion) parentPostion
        else .ok s
    else .ok s

/-- `swim(k)`.  Fuel `k.toNat + 1` covers every run: the position
strictly decreases toward the root and the loop stops at 0. -/
def swim (cmp : JSVal T → JSVal T → Int) (s : MinIndexedDHeap T) (k : Int) :
    JSRes (MinIndexedDHeap T) :=
  swimLoop cmp (k.toNat + 1) s k

/-- `add(key, value)`. -/
def add (cmp : JSVal T → JSVal T → Int) (s : MinIndexedDHeap T) (key : Nat)
    (value : T) : JSRes (Bool × MinIndexedDHeap T) :=
  if s.contains key then .ok (false, s)
  else
    let s1 : MinIndexedDHeap T :=
      { s with values := valuesWrite s.values key (.val value),
               heap := s.heap ++ [some key],
               sz := s.sz + 1 }
    let keyPosition := s1.size - 1
    let s2 : MinIndexedDHeap T := { s1 with pm := pmWrite s1.pm key (some keyPosition) }
    do
      let s3 ← swim cmp s2 keyPosition
      return (true, s3)

/-- `peek()`. -/
def peek (s : MinIndexedDHeap T) : JSVal T :=
  if s.isEmpty then .null else s.resolvePos 0

/-- `valueOf(key)`. -/
def valueOf (s : MinIndexedDHeap T) (key : Nat) : JSVal T :=
  if s.contains key then valuesRead s.values key else .null

/-- JavaScript truthiness of a value slot, parameterized by the
truthiness `falsy` of the payload type: `null` and `undefined` are falsy. -/
def jsFalsy (falsy : T → Bool) : JSVal T → Bool
  | .undefined => true
  | .null => true
  | .val t => falsy t

/-- `updateKey(key, value)`.  Note the second guard is the JavaScript
falsiness test `!this.values[key]`, not a `null` test. -/
def updateKey (cmp : JSVal T → JSVal T → Int) (falsy : T → Bool)
    (s : MinIndexedDHeap T) (key : Nat) (value : T) :
    JSRes (Bool × MinIndexedDHeap T) :=
  if s.contains key = false then .ok (false, s)
  else if jsFalsy falsy (valuesRead s.values key) then .ok (false, s)
  else
    let s1 : MinIndexedDHeap T :=
      { s with values := valuesWrite s.values key (.val value) }
    let position := (pmRead s.pm key).getD 0
    do
      let s2 ← sink cmp s1 position
      let s3 ← swim cmp s2 position
      return (true, s3)

/-- `decreaseKey(key, newValue)`: after the guards the new value is
written unconditionally, then written again when it is less than the old
one (a redundant second write of the same value). -/
def decreaseKey (cmp : JSVal T → JSVal T → Int) (falsy : T → Bool)
    (s : MinIndexedDHeap T) (key : Nat) (newValue : T) :
    JSRes (Bool × MinIndexedDHeap T) :=
  if s.contains key = false then .ok (false, s)
  else
    match valuesRead s.values key with
    | .undefined => .ok (false, s)
    | .null => .ok (false, s)
    | .val oldValue =>
      if falsy oldValue then .ok (false, s)
      else
        let s1 : MinIndexedDHeap T :=
          { s with values := valuesWrite s.values key (.val newValue) }
        let s2 : MinIndexedDHeap T :=
          if lessForValues cmp newValue oldValue then
            { s1 with values := valuesWrite s1.values key (.val newValue) }
          else s1
        let position := (pmRead s2.pm key).getD 0
        do
          let s3 ← sink cmp s2 position
          let s4 ← swim cmp s3 position
          return (true, s4)

/-- `increaseKey(key, newValue)`: identical to `decreaseKey` except the
comparator arguments of the redundant conditional write are flipped. -/
def increaseKey (cmp : JSVal T → JSVal T → Int) (falsy : T → Bool)
    (s : MinIndexedDHeap T) (key : Nat) (newValue : T) :
    JSRes (Bool × MinIndexedDHeap T) :=
  if s.contains key = false then .ok (false, s)
  else
    match valuesRead s.values key with
    | .undefined => .ok (false, s)
    | .null => .ok (false, s)
    | .val oldValue =>
      if falsy oldValue then .ok (false, s)
      else
        let s1 : MinIndexedDHeap T :=
          { s with values := valuesWrite s.values key (.val newValue) }
        let s2 : MinIndexedDHeap T :=
          if lessForValues cmp oldValue newValue then
            { s1 with values := valuesWrite s1.values key (.val newValue) }
          else s1
        let position := (pmRead s2.pm key).getD 0
        do
          let s3 ← sink cmp s2 position
          let s4 ← swim cmp s3 position
          return (true, s4)

/-- `deleteKey(key)`. -/
def deleteKey (cmp : JSVal T → JSVal T → Int) (s : MinIndexedDHeap T)
    (key : Nat) : JSRes (JSVal T × MinIndexedDHeap T) :=
  if s.contains key = false then .ok (.null, s)
  else
    let value := valuesRead s.values key
    match value with
    | .null => .thrown
    | _ =>
      let s1 : MinIndexedDHeap T :=
        { s with values := valuesWrite s.values key .null }
      let removedNodePosition := (pmRead s.pm key).getD 0
      let lastNodePosition := s.size - 1
      let s2 := s1.swap removedNodePosition lastNodePosition
      let s3 : MinIndexedDHeap T :=
        { s2 with heap := s2.heap.dropLast, sz := s2.sz - 1 }
      do
        let s4 ← sink cmp s3 removedNodePosition
        let s5 ← swim cmp s4 removedNodePosition
        let s6 : MinIndexedDHeap T :=
          { s5 with pm := pmWrite s5.pm key (some (-1)) }
        return (value, s6)

/-- `poll()`.  `deleteKey` is called with the key read at the root; when
the root read yields `undefined` (impossible for a nonempty reachable
heap), `deleteKey(undefined)` finds `contains(undefined)` false and
returns `null` leaving the state unchanged, which is inlined here. -/
def poll (cmp : JSVal T → JSVal T → Int) (s : MinIndexedDHeap T) :
    JSRes (JSVal T × MinIndexedDHeap T) :=
  if s.isEmpty then .ok (.null, s)
  else
    match heapRead s.heap 0 with
    | some keyToBeRemoved => deleteKey cmp s keyToBeRemoved
    | none => .ok (.null, s)

/-- `clear()`. -/
def clear (s : MinIndexedDHeap T) : MinIndexedDHeap T :=
  { s with values := [], pm := [], heap := [], sz := 0 }

end MinIndexedDHeap

/-- Modelled from the spec: `utils.defaultCompare` (the file `utils.ts` is
not part of the provided sources).  The spec states that absent a custom
comparator, values are compared by their natural ascending order; the
extension to `null` and `undefined` operands follows the JavaScript
semantics of `a < b ? -1 : a === b ? 0 : 1` for numbers (`undefined`
compares as `NaN`, so both relational tests are false; `null` coerces
to 0). -/
def defaultCompare : JSVal Int → JSVal Int → Int
  | .val a, .val b => if a < b then -1 else if a = b then 0 else 1
  | .undefined, .undefined => 0
  | .undefined, _ => 1
  | _, .undefined => 1
  | .null, .null => 0
  | .null, .val b => if 0 < b then -1 else 1
  | .val a, .null => if a < 0 then -1 else 1

/-- JavaScript truthiness of an `Int` payload: only 0 is falsy. -/
def intFalsy (x : Int) : Bool := x == 0

/-- True exactly on the `null` deletion marker. -/
def isNullSlot {T : Type} : JSVal T → Bool
  | .null => true
  | _ => false

/-- True on every value slot that holds no live payload: both the `null`
deletion marker and the `undefined` never-written marker are absent. -/
def isAbsent {T : Type} : JSVal T → Bool
  | .val _ => false
  | _ => true

/-- No key stored in the heap array resolves to the `null` deletion
marker.  This holds in every reachable state: `deleteKey` nulls a value
slot and removes its key from the heap array inside the same call. -/
def MinIndexedDHeap.noNullInHeap {T : Type} (s : MinIndexedDHeap T) : Bool :=
  s.heap.all fun e =>
    match e with
    | none => true
    | some k => !(isNullSlot (valuesRead s.values k))

/-- The position map holds a nonnegative position for `key`. -/
def MinIndexedDHeap.pmNonNegAt {T : Type} (s : MinIndexedDHeap T) (key : Nat) : Bool :=
  match pmRead s.pm key with
  | some q => decide (0 ≤ q)
  | none => false

/-- The state `add(key, value)` builds just before it swims the new last
position: value recorded, key appended to the heap array, size bumped,
and the position map pointing at the new last position. -/
def addState {T : Type} (s : MinIndexedDHeap T) (key : Nat) (v : T) :
    MinIndexedDHeap T :=
  { d := s.d, sz := s.sz + 1,
    values := valuesWrite s.values key (.val v),
    heap := s.heap ++ [some key],
    pm := pmWrite s.pm key (some (s.sz + 1 - 1)) }

/-- Following the words of the spec for `poll`: read the key stored at
the root position 0, then `deleteKey` that key; an empty result, with the
state unchanged, when the size is 0. -/
def pollSpec {T : Type} (cmp : JSVal T → JSVal T → Int) (s : MinIndexedDHeap T) :
    JSRes (JSVal T × MinIndexedDHeap T) :=
  if s.size = 0 then .ok (.null, s)
  else
    match heapRead s.heap 0 with
    | some rootKey => MinIndexedDHeap.deleteKey cmp s rootKey
    | none => .ok (.null, s)

/-- Repeated polling that records, before each poll, the key stored at
the root (the key about to be removed) together with the polled value. -/
def pollTrace (cmp : JSVal Int → JSVal Int → Int) :
    Nat → MinIndexedDHeap Int → JSRes (List (Option Nat × JSVal Int))
  | 0, _ => .ok []
  | n + 1, s => do
    let rootKey := heapRead s.heap 0
    let (v, s1) ← MinIndexedDHeap.poll cmp s
    let rest ← pollTrace cmp n s1
    return (rootKey, v) :: rest

/-- The singleton heap that `add(0, 5)` builds from a fresh degree-2
heap: key 0 with value 5 at position 0. -/
def c6Demo : MinIndexedDHeap Int :=
  { d := 2, sz := 1, values := [.val 5], heap := [some 0], pm := [some 0] }

/-- Formal reading of claim C6: every internal position comparison fails
fast (throws the internal-consistency error) whenever either operand
position resolves to an absent value slot. -/
def failsFastOnAbsent : Prop :=
  ∀ (s : MinIndexedDHeap Int) (pA pB : Int),
    (isAbsent (s.resolvePos pA) = true ∨ isAbsent (s.resolvePos pB) = true) →
    MinIndexedDHeap.lessForPositions defaultCompare s pA pB = .thrown

open MinIndexedDHeap

/-! Array-model lemmas shared by the proofs below. -/

theorem arrWrite_length {α : Type} (l : List α) (dfl : α) (i : Nat) (v : α) :
    (arrWrite l dfl i v).length = max (i + 1) l.length := by
  unfold arrWrite
  split
  · simp
    omega
  · simp
    omega

theorem arrWrite_getD_self {α : Type} (l : List α) (dfl : α) (i : Nat) (v : α) :
    (arrWrite l dfl i v).getD i dfl = v := by
  unfold arrWrite
  split
  · next h => simp [List.getD_eq_getElem?_getD, List.getElem?_set_self h]
  · next h =>
    rw [List.getD_eq_getElem?_getD,
      List.getElem?_append_right (show (l ++ List.replicate (i - l.length) dfl).length ≤ i by
        simp
        omega)]
    have hz : i - (l ++ List.replicate (i - l.length) dfl).length = 0 := by
      simp
      omega
    rw [hz]
    rfl

theorem arrWrite_getD_ne {α : Type} (l : List α) (dfl : α) (i j : Nat) (v : α)
    (hne : j ≠ i) : (arrWrite l dfl i v).getD j dfl = l.getD j dfl := by
  unfold arrWrite
  split
  · next h => simp [List.getD_eq_getElem?_getD, List.getElem?_set_ne (Ne.symm hne)]
  · next h =>
    rw [List.getD_eq_getElem?_getD, List.getD_eq_getElem?_getD]
    by_cases hj : j < l.length
    · rw [List.getElem?_append_left (show j < (l ++ List.replicate (i - l.length) dfl).length by
        simp
        omega)]
      rw [List.getElem?_append_left hj]
    · by_cases hji : j < i
      · rw [List.getElem?_append_left (show j < (l ++ List.replicate (i - l.length) dfl).length by
          simp
          omega)]
        rw [List.getElem?_append_right (show l.length ≤ j by omega)]
        rw [List.getElem?_replicate, if_pos (show j - l.length < i - l.length by omega)]
        rw [List.getElem?_eq_none (show l.length ≤ j by omega)]
        rfl
      · rw [List.getElem?_eq_none (show (l ++ List.replicate (i - l.length) dfl ++ [v]).length ≤ j by
          simp
          omega)]
        rw [List.getElem?_eq_none (show l.length ≤ j by omega)]

theorem set_of_getElem?_eq {α : Type} :
    ∀ (l : List α) (i : Nat) (v : α), l[i]? = some v → l.set i v = l
  | [], i, v, h => by simp at h
  | a :: t, 0, v, h => by
    simp only [List.getElem?_cons_zero, Option.some.injEq] at h
    simp [h]
  | a :: t, i + 1, v, h => by
    simp only [List.getElem?_cons_succ] at h
    simp [set_of_getElem?_eq t i v h]

theorem arrWrite_idem {α : Type} (l : List α) (dfl : α) (i : Nat) (v : α) :
    arrWrite (arrWrite l dfl i v) dfl i v = arrWrite l dfl i v := by
  have hlen : i < (arrWrite l dfl i v).length := by
    rw [arrWrite_length]
    omega
  have hget : (arrWrite l dfl i v)[i]? = some v := by
    have hd := arrWrite_getD_self l dfl i v
    rw [List.getD_eq_getElem?_getD] at hd
    cases hx : (arrWrite l dfl i v)[i]? with
    | none =>
      rw [List.getElem?_eq_none_iff] at hx
      omega
    | some w =>
      rw [hx] at hd
      simp only [Option.getD_some] at hd
      rw [hd]
  set w := arrWrite l dfl i v with hw
  rw [arrWrite, if_pos hlen]
  exact set_of_getElem?_eq w i v hget

theorem mem_arrWrite {α : Type} (l : List α) (dfl : α) (i : Nat) (v x : α)
    (hx : x ∈ arrWrite l dfl i v) : x ∈ l ∨ x = dfl ∨ x = v := by
  unfold arrWrite at hx
  split at hx
  · rcases List.mem_or_eq_of_mem_set hx with h1 | h1
    · exact Or.inl h1
    · exact Or.inr (Or.inr h1)
  · rcases List.mem_append.mp hx with h1 | h1
    · rcases List.mem_append.mp h1 with h2 | h2
      · exact Or.inl h2
      · exact Or.inr (Or.inl (List.eq_of_mem_replicate h2))
    · rcases List.mem_singleton.mp h1 with h2
      exact Or.inr (Or.inr h2)

theorem pmRead_pmWrite_self (pm : List (Option Int)) (k : Nat) (v : Option Int) :
    pmRead (pmWrite pm k v) k = v :=
  arrWrite_getD_self pm none k v

theorem pmRead_pmWrite_ne (pm : List (Option Int)) (k k2 : Nat) (v : Option Int)
    (h : k2 ≠ k) : pmRead (pmWrite pm k v) k2 = pmRead pm k2 :=
  arrWrite_getD_ne pm none k k2 v h

theorem valuesRead_valuesWrite_self {T : Type} (l : List (JSVal T)) (k : Nat)
    (v : JSVal T) : valuesRead (valuesWrite l k v) k = v :=
  arrWrite_getD_self l .undefined k v

theorem valuesRead_valuesWrite_ne {T : Type} (l : List (JSVal T)) (k k2 : Nat)
    (v : JSVal T) (h : k2 ≠ k) : valuesRead (valuesWrite l k v) k2 = valuesRead l k2 :=
  arrWrite_getD_ne l .undefined k k2 v h

theorem valuesWrite_idem {T : Type} (l : List (JSVal T)) (k : Nat) (v : JSVal T) :
    valuesWrite (valuesWrite l k v) k v = valuesWrite l k v :=
  arrWrite_idem l .undefined k v

theorem heapRead_cases (l : List (Option Nat)) (i : Int) :
    heapRead l i = none ∨ heapRead l i ∈ l := by
  unfold heapRead arrRead
  split
  · exact Or.inr (List.get_mem l _ _)
  · exact Or.inl rfl

theorem mem_heapWrite (l : List (Option Nat)) (i : Int) (v x : Option Nat)
    (hx : x ∈ heapWrite l i v) : x ∈ l ∨ x = none ∨ x = v := by
  unfold heapWrite at hx
  split at hx
  · exact Or.inl hx
  · exact mem_arrWrite l none i.toNat v x hx

/-! Lemmas about `swap`, `resolvePos` and the `swim` loop, used to show
that `add` on a fresh key completes normally in every reachable state. -/

theorem swap_values {T : Type} (s : MinIndexedDHeap T) (pI pJ : Int) :
    (s.swap pI pJ).values = s.values := rfl

theorem swap_sz {T : Type} (s : MinIndexedDHeap T) (pI pJ : Int) :
    (s.swap pI pJ).sz = s.sz := rfl

theorem swap_d {T : Type} (s : MinIndexedDHeap T) (pI pJ : Int) :
    (s.swap pI pJ).d = s.d := rfl

theorem swap_heap {T : Type} (s : MinIndexedDHeap T) (pI pJ : Int) :
    (s.swap pI pJ).heap =
      heapWrite (heapWrite s.heap pI (heapRead s.heap pJ)) pJ (heapRead s.heap pI) := rfl

theorem swap_pm {T : Type} (s : MinIndexedDHeap T) (pI pJ : Int) :
    (s.swap pI pJ).pm =
      (match heapRead s.heap pJ with
       | some k =>
         pmWrite (match heapRead s.heap pI with
                  | some k2 => pmWrite s.pm k2 (some pJ)
                  | none => s.pm) k (some pI)
       | none =>
         match heapRead s.heap pI with
         | some k2 => pmWrite s.pm k2 (some pJ)
         | none => s.pm) := by
  unfold MinIndexedDHeap.swap
  cases heapRead s.heap pJ <;> cases heapRead s.heap pI <;> rfl

theorem noNull_entry {T : Type} (s : MinIndexedDHeap T)
    (hnn : s.noNullInHeap = true) (k : Nat) (hk : some k ∈ s.heap) :
    valuesRead s.values k ≠ .null := by
  unfold MinIndexedDHeap.noNullInHeap at hnn
  rw [List.all_eq_true] at hnn
  have h := hnn (some k) hk
  have h2 : (!isNullSlot (valuesRead s.values k)) = true := h
  intro hc
  rw [hc] at h2
  simp [isNullSlot] at h2

theorem noNull_of_entries {T : Type} (s : MinIndexedDHeap T)
    (h : ∀ k : Nat, some k ∈ s.heap → valuesRead s.values k ≠ .null) :
    s.noNullInHeap = true := by
  unfold MinIndexedDHeap.noNullInHeap
  rw [List.all_eq_true]
  intro e he
  cases e with
  | none => rfl
  | some k =>
    show (!isNullSlot (valuesRead s.values k)) = true
    cases hv : valuesRead s.values k with
    | null => exact absurd hv (h k he)
    | undefined => simp [isNullSlot]
    | val t => simp [isNullSlot]

theorem resolvePos_ne_null {T : Type} (s : MinIndexedDHeap T)
    (hnn : s.noNullInHeap = true) (p : Int) : s.resolvePos p ≠ .null := by
  unfold MinIndexedDHeap.resolvePos
  cases hk : heapRead s.heap p with
  | none => simp
  | some k =>
    rcases heapRead_cases s.heap p with h | h
    · rw [hk] at h
      cases h
    · rw [hk] at h
      exact noNull_entry s hnn k h

theorem lessForPositions_ok {T : Type} (cmp : JSVal T → JSVal T → Int)
    (s : MinIndexedDHeap T) (hnn : s.noNullInHeap = true) (pA pB : Int) :
    ∃ r, lessForPositions cmp s pA pB = .ok r := by
  have hA := resolvePos_ne_null s hnn pA
  have hB := resolvePos_ne_null s hnn pB
  unfold MinIndexedDHeap.lessForPositions
  cases hvA : s.resolvePos pA <;> cases hvB : s.resolvePos pB <;>
    first
      | exact absurd hvA hA
      | exact absurd hvB hB
      | exact ⟨_, rfl⟩

theorem noNull_swap {T : Type} (s : MinIndexedDHeap T)
    (hnn : s.noNullInHeap = true) (pI pJ : Int) :
    (s.swap pI pJ).noNullInHeap = true := by
  apply noNull_of_entries
  intro k hk
  rw [swap_values]
  rw [swap_heap] at hk
  have hk2 : some k ∈ heapWrite s.heap pI (heapRead s.heap pJ) ∨
      some k ∈ s.heap := by
    rcases mem_heapWrite _ pJ _ _ hk with h | h | h
    · exact Or.inl h
    · cases h
    · rcases heapRead_cases s.heap pI with h2 | h2
      · rw [h2] at h
        cases h
      · rw [h]
        exact Or.inr h2
  have hk3 : some k ∈ s.heap := by
    rcases hk2 with h | h
    · rcases mem_heapWrite _ pI _ _ h with h2 | h2 | h2
      · exact h2
      · cases h2
      · rcases heapRead_cases s.heap pJ with h3 | h3
        · rw [h3] at h2
          cases h2
        · rw [h2]
          exact h3
    · exact h
  exact noNull_entry s hnn k hk3

theorem pmNonNegAt_pmWrite {T : Type} (s : MinIndexedDHeap T) (key k : Nat)
    (q : Int) (hq : 0 ≤ q) (pm2 : List (Option Int))
    (h : s.pmNonNegAt key = true)
    (hpm : pm2 = pmWrite s.pm k (some q)) :
    (MinIndexedDHeap.mk s.d s.sz s.values s.heap pm2).pmNonNegAt key = true := by
  unfold pmNonNegAt at h ⊢
  simp only [hpm]
  by_cases hkk : key = k
  · subst hkk
    rw [pmRead_pmWrite_self]
    simpa using hq
  · rw [pmRead_pmWrite_ne _ _ _ _ hkk]
    exact h

theorem pmNonNegAt_swap {T : Type} (s : MinIndexedDHeap T) (key : Nat)
    (pI pJ : Int) (hI : 0 ≤ pI) (hJ : 0 ≤ pJ)
    (h : s.pmNonNegAt key = true) : (s.swap pI pJ).pmNonNegAt key = true := by
  unfold pmNonNegAt at h ⊢
  rw [swap_pm]
  cases heapRead s.heap pJ with
  | some kJ =>
    by_cases hkJ : key = kJ
    · subst hkJ
      cases heapRead s.heap pI with
      | some kI =>
        rw [pmRead_pmWrite_self]
        simpa using hI
      | none =>
        rw [pmRead_pmWrite_self]
        simpa using hI
    · cases heapRead s.heap pI with
      | some kI =>
        rw [pmRead_pmWrite_ne _ _ _ _ hkJ]
        by_cases hkI : key = kI
        · subst hkI
          rw [pmRead_pmWrite_self]
          simpa using hJ
        · rw [pmRead_pmWrite_ne _ _ _ _ hkI]
          exact h
      | none =>
        rw [pmRead_pmWrite_ne _ _ _ _ hkJ]
        exact h
  | none =>
    cases heapRead s.heap pI with
    | some kI =>
      by_cases hkI : key = kI
      · subst hkI
        rw [pmRead_pmWrite_self]
        simpa using hJ
      · rw [pmRead_pmWrite_ne _ _ _ _ hkI]
        exact h
    | none => exact h

theorem contains_of_pmNonNegAt {T : Type} (s : MinIndexedDHeap T) (key : Nat)
    (h : s.pmNonNegAt key = true) : s.contains key = true := by
  unfold MinIndexedDHeap.pmNonNegAt at h
  unfold MinIndexedDHeap.contains
  cases hq : pmRead s.pm key with
  | none =>
    rw [hq] at h
    cases h
  | some q =>
    rw [hq] at h
    have hq0 : 0 ≤ q := by simpa using h
    show (if q = -1 then false else true) = true
    rw [if_neg (by omega)]

theorem swimLoop_spec {T : Type} (cmp : JSVal T → JSVal T → Int) :
    ∀ (fuel : Nat) (s : MinIndexedDHeap T) (k : Int),
      1 ≤ s.d → s.noNullInHeap = true → k.toNat < fuel →
      ∃ s2, swimLoop cmp fuel s k = .ok s2 ∧ s2.noNullInHeap = true ∧
        s2.values = s.values ∧ s2.sz = s.sz ∧ s2.d = s.d ∧
        ∀ key, s.pmNonNegAt key = true → s2.pmNonNegAt key = true
  | 0, s, k, hd, hnn, hfuel => absurd hfuel (by omega)
  | fuel + 1, s, k, hd, hnn, hfuel => by
    simp only [swimLoop]
    by_cases hk : k > 0
    · rw [if_pos hk]
      obtain ⟨r, hr⟩ := lessForPositions_ok cmp s hnn k (getParentPosition s.d k)
      cases r with
      | false =>
        refine ⟨s, ?_, hnn, rfl, rfl, rfl, fun _ h => h⟩
        rw [hr]
        rfl
      | true =>
        have hp0 : 0 ≤ getParentPosition s.d k :=
          Int.fdiv_nonneg (by omega) (by omega)
        have hple : getParentPosition s.d k ≤ k - 1 := by
          unfold MinIndexedDHeap.getParentPosition
          rw [Int.fdiv_eq_ediv _ (by omega)]
          exact Int.ediv_le_self _ (by omega)
        have hfuel2 : (getParentPosition s.d k).toNat < fuel := by omega
        have hd2 : 1 ≤ (s.swap k (getParentPosition s.d k)).d := by
          rw [swap_d]
          exact hd
        obtain ⟨s2, h1, h2, h3, h4, h5, h6⟩ :=
          swimLoop_spec cmp fuel (s.swap k (getParentPosition s.d k))
            (getParentPosition s.d k) hd2 (noNull_swap s hnn _ _) hfuel2
        refine ⟨s2, ?_, h2, ?_, ?_, ?_, ?_⟩
        · rw [hr]
          exact h1
        · rw [h3, swap_values]
        · rw [h4, swap_sz]
        · rw [h5, swap_d]
        · intro key hkey
          exact h6 key (pmNonNegAt_swap s key k _ (by omega) hp0 hkey)
    · rw [if_neg hk]
      exact ⟨s, rfl, hnn, rfl, rfl, rfl, fun _ h => h⟩

theorem swim_spec {T : Type} (cmp : JSVal T → JSVal T → Int)
    (s : MinIndexedDHeap T) (k : Int) (hd : 1 ≤ s.d)
    (hnn : s.noNullInHeap = true) :
    ∃ s2, swim cmp s k = .ok s2 ∧ s2.noNullInHeap = true ∧
      s2.values = s.values ∧ s2.sz = s.sz ∧ s2.d = s.d ∧
      ∀ key, s.pmNonNegAt key = true → s2.pmNonNegAt key = true :=
  swimLoop_spec cmp (k.toNat + 1) s k hd hnn (by omega)

/-! Claim theorems. -/

/-- C2.  Evaluation of the child and parent position helpers: for degree
2 the children list of position 0 is `[1, 1]` (two copies of the first
child position, not the set `\x7b1, 2\x7d` the claim states), and
likewise for degree 3 the children of position 1 are `[4, 4, 4]` instead
of `\x7b4, 5, 6\x7d`.  The parent half of the claim does hold:
`getParentPosition` is floor division `(p - 1) / d`. -/
theorem c2_children_positions_eval :
    getChildrenPositions 2 0 = [1, 1] ∧
    getChildrenPositions 3 1 = [4, 4, 4] ∧
    getParentPosition 2 5 = 2 ∧
    getParentPosition 3 7 = 2 := by
  refine ⟨rfl, rfl, ?_, ?_⟩ <;> decide

/-- C1.  Evaluation of the code at the failing input: from a fresh
degree-2 heap, after `add(0,1)`, `add(1,10)`, `add(2,5)` and
`updateKey(0,7)` the heap has size 3, position 0 resolves to value 7 and
its valid degree-2 child position 2 (`0*2+2`) resolves to value 5, with
`compare(7,5) = 1 > 0`, violating the claimed heap order.  (The position
map half of the claim is intact here: `pm[heap[0]] = 0`,
`pm[heap[2]] = 2`.) -/
theorem c1_heap_order_violation :
    (do
      let (_, s1) ← add defaultCompare (mkHeap Int 2) 0 (1 : Int)
      let (_, s2) ← add defaultCompare s1 1 10
      let (_, s3) ← add defaultCompare s2 2 5
      let (_, s4) ← updateKey defaultCompare intFalsy s3 0 7
      return (s4.resolvePos 0, s4.resolvePos 2, pmRead s4.pm 0, pmRead s4.pm 2, s4.sz))
      = .ok (.val 7, .val 5, some 0, some 2, 3) ∧
    defaultCompare (.val 7) (.val 5) = 1 := by
  exact ⟨by decide, by decide⟩

/-- C3.  Evaluation of the code at the failing input: after `add(0, 0)`
on a fresh degree-2 heap the key 0 is contained with the legitimate
falsy payload 0, yet `updateKey(0, 7)` returns false and leaves the
stored value 0 in place, because of the `!this.values[key]` falsiness
guard. -/
theorem c3_falsy_payload_update_rejected :
    (do
      let (r1, s1) ← add defaultCompare (mkHeap Int 2) 0 (0 : Int)
      let (r2, s2) ← updateKey defaultCompare intFalsy s1 0 7
      return (r1, s1.contains 0, r2, s2.valueOf 0, s2 == s1))
      = .ok (true, true, false, .val 0, true) := by
  decide

/-- C5.  `poll()` equals the spec description: read the key stored at
root position 0, then `deleteKey` that key; empty result and unchanged
state when the size is 0. -/
theorem c5_poll_eq_pollSpec {T : Type} (cmp : JSVal T → JSVal T → Int)
    (s : MinIndexedDHeap T) : poll cmp s = pollSpec cmp s := by
  unfold MinIndexedDHeap.poll pollSpec MinIndexedDHeap.isEmpty MinIndexedDHeap.size
  by_cases h : s.sz = 0
  · simp [h]
  · simp [h]

/-- C6 (amended).  An internal position comparison throws the
internal-consistency error exactly when one of its operands resolves to
the `null` deletion marker; an operand resolving to `undefined` (for
example an out-of-bounds position during `sink`) is passed to the
comparator silently. -/
theorem c6_thrown_iff_null {T : Type} (cmp : JSVal T → JSVal T → Int)
    (s : MinIndexedDHeap T) (pA pB : Int) :
    lessForPositions cmp s pA pB = .thrown ↔
      (s.resolvePos pA = .null ∨ s.resolvePos pB = .null) := by
  unfold MinIndexedDHeap.lessForPositions
  cases hA : s.resolvePos pA <;> cases hB : s.resolvePos pB <;> simp

/-- C6 (counterexample).  Claim C6 as stated is false: in the singleton
heap built by `add(0, 5)`, position 1 is out of bounds and resolves to
the absent `undefined`, yet `lessForPositions(0, 1)` — the comparison
`sink(0)` performs against the first child position — completes without
throwing and silently feeds `undefined` to the comparator, and the whole
`sink(0)` call completes normally. -/
theorem c6_counterexample : ¬ failsFastOnAbsent := by
  intro h
  have h1 := h c6Demo 0 1 (Or.inr (by decide))
  have h2 : lessForPositions defaultCompare c6Demo 0 1 = .ok false := by decide
  rw [h1] at h2
  cases h2

/-- C9.  Every mutating or reading operation on a key that is not
contained returns false or an empty result without throwing and leaves
the state unchanged. -/
theorem c9_absent_key_noops {T : Type} (cmp : JSVal T → JSVal T → Int)
    (falsy : T → Bool) (s : MinIndexedDHeap T) (key : Nat) (v : T)
    (h : s.contains key = false) :
    updateKey cmp falsy s key v = .ok (false, s) ∧
    decreaseKey cmp falsy s key v = .ok (false, s) ∧
    increaseKey cmp falsy s key v = .ok (false, s) ∧
    deleteKey cmp s key = .ok (.null, s) ∧
    s.valueOf key = .null := by
  refine ⟨?_, ?_, ?_, ?_, ?_⟩ <;>
    simp [MinIndexedDHeap.updateKey, MinIndexedDHeap.decreaseKey,
      MinIndexedDHeap.increaseKey, MinIndexedDHeap.deleteKey,
      MinIndexedDHeap.valueOf, h]

/-- C9 witness at a concrete input: the fresh degree-2 heap and key 0. -/
theorem c9_witness :
    updateKey defaultCompare intFalsy (mkHeap Int 2) 0 1 = .ok (false, mkHeap Int 2) ∧
    decreaseKey defaultCompare intFalsy (mkHeap Int 2) 0 1 = .ok (false, mkHeap Int 2) ∧
    increaseKey defaultCompare intFalsy (mkHeap Int 2) 0 1 = .ok (false, mkHeap Int 2) ∧
    deleteKey defaultCompare (mkHeap Int 2) 0 = .ok (.null, mkHeap Int 2) ∧
    (mkHeap Int 2).valueOf 0 = .null :=
  c9_absent_key_noops defaultCompare intFalsy (mkHeap Int 2) 0 1 (by decide)

/-- C10.  On an empty heap (size 0), `peek`, `poll` and `valueOf` return
empty results without throwing, `isEmpty` is true and `size` is 0; the
`valueOf` part is stated for any key the heap does not contain, which on
an empty heap is every key. -/
theorem c10_empty_heap {T : Type} (cmp : JSVal T → JSVal T → Int)
    (s : MinIndexedDHeap T) (key : Nat) (h0 : s.sz = 0)
    (hk : s.contains key = false) :
    s.peek = .null ∧ poll cmp s = .ok (.null, s) ∧ s.valueOf key = .null ∧
    s.isEmpty = true ∧ s.size = 0 := by
  refine ⟨?_, ?_, ?_, ?_, ?_⟩ <;>
    simp [MinIndexedDHeap.peek, MinIndexedDHeap.poll, MinIndexedDHeap.isEmpty,
      MinIndexedDHeap.size, MinIndexedDHeap.valueOf, h0, hk]

/-- C10 witness at a concrete input: the fresh degree-3 heap and key 5. -/
theorem c10_witness :
    (mkHeap Int 3).peek = .null ∧
    poll defaultCompare (mkHeap Int 3) = .ok (.null, mkHeap Int 3) ∧
    (mkHeap Int 3).valueOf 5 = .null ∧
    (mkHeap Int 3).isEmpty = true ∧
    (mkHeap Int 3).size = 0 :=
  c10_empty_heap defaultCompare (mkHeap Int 3) 5 (by decide) (by decide)

/-- C8.  From a fresh degree-2 heap with the natural ascending
comparator, after `add(0,5)`, `add(1,3)`, `add(2,8)`, `add(3,1)`,
`add(4,9)`, five successive polls return the values 1, 3, 5, 8, 9 and
remove the keys 3, 1, 0, 2, 4 in that order. -/
theorem c8_extraction_order :
    (do
      let (_, s1) ← add defaultCompare (mkHeap Int 2) 0 (5 : Int)
      let (_, s2) ← add defaultCompare s1 1 3
      let (_, s3) ← add defaultCompare s2 2 8
      let (_, s4) ← add defaultCompare s3 3 1
      let (_, s5) ← add defaultCompare s4 4 9
      pollTrace defaultCompare 5 s5)
      = .ok [(some 3, .val 1), (some 1, .val 3), (some 0, .val 5),
             (some 2, .val 8), (some 4, .val 9)] := by
  decide

/-- C4.  For a contained key, `decreaseKey` and `increaseKey` return the
same result and state as `updateKey`: all three share the guards, the
overwrite happens before the direction test (whose conditional second
write stores the value already stored), and sink then swim run from the
same position. -/
theorem c4_dec_inc_eq_update {T : Type} (cmp : JSVal T → JSVal T → Int)
    (falsy : T → Bool) (s : MinIndexedDHeap T) (key : Nat) (v : T)
    (h : s.contains key = true) :
    decreaseKey cmp falsy s key v = updateKey cmp falsy s key v ∧
    increaseKey cmp falsy s key v = updateKey cmp falsy s key v := by
  constructor
  · unfold MinIndexedDHeap.decreaseKey MinIndexedDHeap.updateKey
    rw [h]
    cases hv : valuesRead s.values key with
    | undefined => simp [jsFalsy]
    | null => simp [jsFalsy]
    | val old =>
      by_cases hf : falsy old = true
      · simp [jsFalsy, hf]
      · simp only [jsFalsy, hf, Bool.false_eq_true, if_false]
        by_cases hl : lessForValues cmp v old = true
        · simp [hl, valuesWrite_idem]
        · simp [hl]
  · unfold MinIndexedDHeap.increaseKey MinIndexedDHeap.updateKey
    rw [h]
    cases hv : valuesRead s.values key with
    | undefined => simp [jsFalsy]
    | null => simp [jsFalsy]
    | val old =>
      by_cases hf : falsy old = true
      · simp [jsFalsy, hf]
      · simp only [jsFalsy, hf, Bool.false_eq_true, if_false]
        by_cases hl : lessForValues cmp old v = true
        · simp [hl, valuesWrite_idem]
        · simp [hl]

/-- C4 witness at a concrete input: a singleton heap containing key 0
with value 5, and the replacement value 3. -/
theorem c4_witness :
    MinIndexedDHeap.contains ⟨2, 1, [.val 5], [some 0], [some 0]⟩ 0 = true ∧
    (decreaseKey defaultCompare intFalsy ⟨2, 1, [.val 5], [some 0], [some 0]⟩ 0 3 =
       updateKey defaultCompare intFalsy ⟨2, 1, [.val 5], [some 0], [some 0]⟩ 0 3 ∧
     increaseKey defaultCompare intFalsy ⟨2, 1, [.val 5], [some 0], [some 0]⟩ 0 3 =
       updateKey defaultCompare intFalsy ⟨2, 1, [.val 5], [some 0], [some 0]⟩ 0 3) :=
  ⟨by decide, c4_dec_inc_eq_update defaultCompare intFalsy
    ⟨2, 1, [.val 5], [some 0], [some 0]⟩ 0 3 (by decide)⟩

theorem add_eq_of_not_contains {T : Type} (cmp : JSVal T → JSVal T → Int)
    (s : MinIndexedDHeap T) (key : Nat) (v : T)
    (hc : s.contains key = false) :
    add cmp s key v = do
      let s3 ← swim cmp (addState s key v) (s.sz + 1 - 1)
      return (true, s3) := by
  unfold MinIndexedDHeap.add addState
  rw [hc]
  rfl

/-- C7.  `add` on a contained key is a no-op returning false; `add` on a
fresh key completes normally and returns true, after which the key is
contained with the added value in effect, so a second `add` of the same
key is the no-op and the first value stays.  Stated for states with
nonnegative size, degree at least 1, and no null value slot reachable
from the heap array, all of which hold in every reachable state. -/
theorem c7_add_duplicate {T : Type} (cmp : JSVal T → JSVal T → Int)
    (s : MinIndexedDHeap T) (key : Nat) (v v2 : T)
    (hd : 1 ≤ s.d) (hsz : 0 ≤ s.sz) (hnn : s.noNullInHeap = true) :
    (s.contains key = true → add cmp s key v = .ok (false, s)) ∧
    (s.contains key = false →
      ∃ s2, add cmp s key v = .ok (true, s2) ∧ s2.contains key = true ∧
        s2.valueOf key = .val v ∧ add cmp s2 key v2 = .ok (false, s2)) := by
  constructor
  · intro hc
    unfold MinIndexedDHeap.add
    rw [hc]
    rfl
  · intro hc
    have hd2 : 1 ≤ (addState s key v).d := hd
    have hnn2 : (addState s key v).noNullInHeap = true := by
      apply noNull_of_entries
      intro k hk
      show valuesRead (valuesWrite s.values key (.val v)) k ≠ .null
      by_cases hkk : k = key
      · subst hkk
        rw [valuesRead_valuesWrite_self]
        intro hcon
        cases hcon
      · rw [valuesRead_valuesWrite_ne _ _ _ _ hkk]
        have hk2 : some k ∈ s.heap := by
          rcases List.mem_append.mp hk with h1 | h1
          · exact h1
          · have h2 := List.mem_singleton.mp h1
            cases h2
            exact absurd rfl hkk
        exact noNull_entry s hnn k hk2
    obtain ⟨s2, hok, hnn3, hvals, hszeq, hdeq, hpm⟩ :=
      swim_spec cmp (addState s key v) (s.sz + 1 - 1) hd2 hnn2
    have hpmkey : (addState s key v).pmNonNegAt key = true := by
      unfold MinIndexedDHeap.pmNonNegAt
      have hr : pmRead (addState s key v).pm key = some (s.sz + 1 - 1) :=
        pmRead_pmWrite_self _ _ _
      rw [hr]
      show decide (0 ≤ s.sz + 1 - 1) = true
      simp only [decide_eq_true_eq]
      omega
    have hcont2 : s2.contains key = true :=
      contains_of_pmNonNegAt s2 key (hpm key hpmkey)
    refine ⟨s2, ?_, hcont2, ?_, ?_⟩
    · rw [add_eq_of_not_contains cmp s key v hc, hok]
      rfl
    · unfold MinIndexedDHeap.valueOf
      rw [hcont2]
      show valuesRead s2.values key = .val v
      rw [hvals]
      show valuesRead (valuesWrite s.values key (.val v)) key = .val v
      exact valuesRead_valuesWrite_self _ _ _
    · unfold MinIndexedDHeap.add
      rw [hcont2]
      rfl

/-- C7 witness at a concrete input: the fresh degree-2 heap, key 0 and
values 1 then 2. -/
theorem c7_witness :
    ((mkHeap Int 2).contains 0 = true →
      add defaultCompare (mkHeap Int 2) 0 1 = .ok (false, mkHeap Int 2)) ∧
    ((mkHeap Int 2).contains 0 = false →
      ∃ s2, add defaultCompare (mkHeap Int 2) 0 1 = .ok (true, s2) ∧
        s2.contains 0 = true ∧ s2.valueOf 0 = .val 1 ∧
        add defaultCompare s2 0 2 = .ok (false, s2)) :=
  c7_add_duplicate defaultCompare (mkHeap Int 2) 0 1 2 (by decide) (by decide)
    (by decide)

end TSHeap
